import Mathlib

/-!
Verification development for the plan orchestration module of the sidecar
repository (`src/sidecar/src/webserver/plan.rs`).

The pure control flow of `execute_plan_until`, `append_to_plan`,
`generate_steps_from_diagnostics` and the SSE handler framing is embedded
shallowly.  External collaborators (the tool/LLM execution capability, the
diagnostics capability, the planning capability) are parameters: an oracle
`Nat → Bool` decides whether executing a given step index succeeds, and
functions supply generated steps / fetched diagnostics.  The plan storage
layer is modelled as an `Option Plan` value: `none` means no loadable
snapshot, saving overwrites the value.
-/

namespace Sidecar

/-- One step of a plan.  The orchestration code treats steps opaquely; the
`files` field records the files the step touches (used by
`get_edited_files`). -/
structure PlanStep where
  content : String
  files : List String
deriving Repr, DecidableEq

/-- Modelled from the spec: the `Plan` entity of the plan model (the `Plan`
type itself is not part of the provided sources; the spec describes it as an
id, an ordered sequence of steps, and an optional checkpoint index meaning
"all steps with index ≤ checkpoint have completed successfully", `none`
meaning no step has completed). -/
structure Plan where
  id : String
  steps : List PlanStep
  checkpoint : Option Nat
deriving Repr, DecidableEq

/-- Modelled from the spec: `Plan::increment_checkpoint` (not in the provided
sources).  The spec says a successful execution of the step at index `idx`
advances `checkpoint` to `idx`; the loop in `execute_plan_until` only ever
executes the step one past the current checkpoint (index 0 when the
checkpoint is absent), so advancing-to-the-executed-index is realized as:
`none` becomes `some 0`, `some c` becomes `some (c + 1)`. -/
def incrementCheckpoint : Option Nat → Option Nat
  | none => some 0
  | some c => some (c + 1)

/-- The progress events `execute_plan_until` (and the diagnostics path) send
over the agent channel, one constructor per distinct message shape in the
source. -/
inductive PlanEvent where
  | loadFailed : PlanEvent
  | alreadyExecuted : Nat → Nat → PlanEvent
  | finishedUntil : Nat → PlanEvent
  | erroredStep : Nat → PlanEvent
deriving Repr, DecidableEq

/-- The literal message strings of the source (`plan.rs` lines 99, 125-129,
150, 160); note the source's spelling "stroage". -/
def PlanEvent.message : PlanEvent → String
  | .loadFailed => "failed to load plan from stroage"
  | .alreadyExecuted idx ck =>
      "Already executed step:" ++ toString idx ++ ", checkpoint is at: " ++ toString ck
  | .finishedUntil idx => "Finished executing until: " ++ toString idx
  | .erroredStep idx => "Errored out while executing step: " ++ toString idx

/-- Recognizer for the error progress event. -/
def PlanEvent.isError : PlanEvent → Bool
  | .erroredStep _ => true
  | _ => false

/-- Result of the step-processing loop of `execute_plan_until` (`plan.rs`
lines 111-168): the checkpoint after the loop, the events sent, the indices
passed to `execute_step` in order, the checkpoint values passed to
`prepare_context` in order, the checkpoint values persisted by `save_plan`
in order, and whether the loop returned early because a step errored. -/
structure LoopOut where
  checkpoint : Option Nat
  events : List PlanEvent
  attempted : List Nat
  contexts : List Nat
  saved : List Nat
  halted : Bool
deriving Repr, DecidableEq

/-- The body of the `for (idx, plan_step)` loop of `execute_plan_until`
(`plan.rs` lines 111-168), processing the filtered index list in order.
For each index: if `checkpoint().is_some() && idx <= checkpoint` an
"already executed" event is sent and the index skipped; otherwise
`prepare_context(steps, checkpoint.unwrap_or_default())` is called, the
step is executed, and on failure an error event is sent and the loop
returns, while on success a finished event is sent, the checkpoint is
incremented and the plan saved. -/
def execLoop (oracle : Nat → Bool) : List Nat → Option Nat → LoopOut
  | [], ck => ⟨ck, [], [], [], [], false⟩
  | idx :: rest, ck =>
    if ck.isSome ∧ idx ≤ ck.getD 0 then
      let r := execLoop oracle rest ck
      ⟨r.checkpoint, PlanEvent.alreadyExecuted idx (ck.getD 0) :: r.events,
       r.attempted, r.contexts, r.saved, r.halted⟩
    else if oracle idx then
      let ck' := incrementCheckpoint ck
      let r := execLoop oracle rest ck'
      ⟨r.checkpoint, PlanEvent.finishedUntil idx :: r.events, idx :: r.attempted,
       ck.getD 0 :: r.contexts, ck'.getD 0 :: r.saved, r.halted⟩
    else
      ⟨ck, [PlanEvent.erroredStep idx], [idx], [ck.getD 0], [], true⟩

/-- The index list the loop of `execute_plan_until` iterates over:
`plan.steps().iter().enumerate().filter_map(|(idx, _)| idx <= execute_until)`
(`plan.rs` lines 111-122). -/
def planIdxs (p : Plan) (k : Nat) : List Nat :=
  (List.range p.steps.length).filter (fun i => i ≤ k)

/-- The checkpoint of the snapshot left in storage after a run that saved
the checkpoint values `saved` in order, over a plan whose stored checkpoint
was `ck`: the last saved value, or `ck` when nothing was saved. -/
def lastSavedCk (saved : List Nat) (ck : Option Nat) : Option Nat :=
  match saved.getLast? with
  | none => ck
  | some v => some v

/-- Observable outcome of one `execute_plan_until` call: the storage content
afterwards (last saved snapshot, or the prior content when nothing was
saved), the in-memory plan at return (`none` when the load failed), the
events sent, the attempted step indices, the checkpoints handed to
`prepare_context`, and whether a step errored. -/
structure ExecOut where
  storage : Option Plan
  finalPlan : Option Plan
  events : List PlanEvent
  attempted : List Nat
  contexts : List Nat
  halted : Bool
deriving Repr, DecidableEq

/-- `execute_plan_until` (`plan.rs` lines 87-169): load the plan from
storage (on failure send the load-failed message and return), then run the
loop over all step indices `≤ execute_until`. -/
def execute_plan_until (oracle : Nat → Bool) (k : Nat) (storage : Option Plan) :
    ExecOut :=
  match storage with
  | none => ⟨none, none, [PlanEvent.loadFailed], [], [], false⟩
  | some p =>
    let r := execLoop oracle (planIdxs p k) p.checkpoint
    { storage := some ⟨p.id, p.steps, lastSavedCk r.saved p.checkpoint⟩
      finalPlan := some ⟨p.id, p.steps, r.checkpoint⟩
      events := r.events
      attempted := r.attempted
      contexts := r.contexts
      halted := r.halted }

/-- The index at which a not-yet-halted plan resumes execution: one past the
checkpoint, or index 0 when no step has completed. -/
def resumeIdx : Option Nat → Nat
  | none => 0
  | some c => c + 1

/-- The checkpoint of the plan held in storage, when a plan is there. -/
def storageCk (s : Option Plan) : Option Nat :=
  s.bind Plan.checkpoint

/-- The events `append_to_plan` sends over the agent channel, one
constructor per distinct message in the source (`plan.rs` lines 39, 54,
63-67, 77). -/
inductive AppendEvent where
  | loadFailed : AppendEvent
  | generatingSteps : AppendEvent
  | planDebugView : String → AppendEvent
  | addStepsFailed : AppendEvent
deriving Repr, DecidableEq

/-- The literal message strings of `append_to_plan` (note this function
spells "storage" correctly, unlike `execute_plan_until`). -/
def AppendEvent.message : AppendEvent → String
  | .loadFailed => "failed to load plan from storage"
  | .generatingSteps => "Generating new steps from the context"
  | .planDebugView d => d
  | .addStepsFailed => "Failed to add new steps to the plan"

/-- Modelled from the spec: `PlanService::append_steps` (not in the provided
sources) — asks the planning capability for additional steps and, when that
succeeds, extends `steps` with them without touching `checkpoint`; fails
when the planning capability fails.  The capability's outcome is the
`genResult` parameter (`none` = generation error). -/
def append_steps (p : Plan) (genResult : Option (List PlanStep)) : Option Plan :=
  genResult.map (fun newSteps => ⟨p.id, p.steps ++ newSteps, p.checkpoint⟩)

/-- Observable outcome of one `append_to_plan` call: storage content
afterwards, events sent, and the snapshots written by `save_plan`. -/
structure AppendOut where
  storage : Option Plan
  events : List AppendEvent
  saved : List Plan
deriving Repr, DecidableEq

/-- `append_to_plan` (`plan.rs` lines 28-84): load the plan (on failure send
the load-failed message and return), send the generating message, call
`append_steps`; on success send the debug view and save the extended plan,
on failure send the add-steps-failed message and save nothing. -/
def append_to_plan (storage : Option Plan) (genResult : Option (List PlanStep))
    (debugView : String) : AppendOut :=
  match storage with
  | none => ⟨none, [AppendEvent.loadFailed], []⟩
  | some p =>
    match append_steps p genResult with
    | some p' =>
        ⟨some p', [AppendEvent.generatingSteps, AppendEvent.planDebugView debugView],
         [p']⟩
    | none =>
        ⟨some p, [AppendEvent.generatingSteps, AppendEvent.addStepsFailed], []⟩

/-- A diagnostic record as used by `generate_steps_from_diagnostics`: the
file it applies to (`fs_file_path()`) and its content. -/
structure Diagnostic where
  fs_file_path : String
  message : String
deriving Repr, DecidableEq

/-- The diagnostic map: file path to the ordered diagnostics for that file
(`DiagnosticMap` in the source is a `HashMap<String, Vec<Diagnostic>>`;
per-key content and order are what the claims are about, so it is embedded
as an association list in first-insertion order). -/
abbrev DiagnosticMap := List (String × List Diagnostic)

/-- Key lookup in the diagnostic map. -/
def lookupMap (m : DiagnosticMap) (p : String) : Option (List Diagnostic) :=
  match m with
  | [] => none
  | (q, l) :: rest => if q = p then some l else lookupMap rest p

/-- One fold step of the grouping at `plan.rs` lines 298-306:
`acc.entry(error.fs_file_path().to_owned()).or_insert_with(Vec::new).push(error)`. -/
def mapPush (m : DiagnosticMap) (d : Diagnostic) : DiagnosticMap :=
  match m with
  | [] => [(d.fs_file_path, [d])]
  | (q, l) :: rest =>
    if q = d.fs_file_path then (q, l ++ [d]) :: rest else (q, l) :: mapPush rest d

/-- The grouping fold of `generate_steps_from_diagnostics` (`plan.rs` lines
298-306): fold the flat diagnostics list into a map from file path to the
diagnostics pushed for that path, starting from the empty map. -/
def diagnostics_grouped_by_file (ds : List Diagnostic) : DiagnosticMap :=
  ds.foldl mapPush []

/-- Modelled from the spec: `PlanService::get_edited_files` (not in the
provided sources) — "determines the set of files touched by all steps up to
the checkpoint". -/
def get_edited_files (p : Plan) (checkpoint : Nat) : List String :=
  ((p.steps.take (checkpoint + 1)).map PlanStep.files).flatten

/-- Observable outcome of one `generate_steps_from_diagnostics` call:
storage afterwards, snapshots written, steps appended to the plan, the file
lists handed to the diagnostics capability, the number of calls to the
planning capability, the (dropped) response of that capability, and events
sent. -/
structure DiagOut where
  storage : Option Plan
  saved : List Plan
  appended : List PlanStep
  fetches : List (List String)
  genCalls : Nat
  discardedResponse : List PlanStep
  events : List PlanEvent
deriving Repr, DecidableEq

/-- `generate_steps_from_diagnostics` (`plan.rs` lines 252-328): load the
plan (on failure send the load-failed message and return); when the plan has
no checkpoint, return without fetching or generating anything; otherwise
compute the edited files up to the checkpoint, fetch their diagnostics
(`unwrap_or(vec![])` on failure), group them by file, and call the planning
capability — whose response is bound to `_response` and dropped: nothing is
appended to the plan and nothing is saved. -/
def generate_steps_from_diagnostics
    (fetchDiagnostics : List String → Option (List Diagnostic))
    (genSteps : DiagnosticMap → List PlanStep)
    (storage : Option Plan) : DiagOut :=
  match storage with
  | none => ⟨none, [], [], [], 0, [], [PlanEvent.loadFailed]⟩
  | some p =>
    match p.checkpoint with
    | none => ⟨some p, [], [], [], 0, [], []⟩
    | some checkpoint =>
      let edited := get_edited_files p checkpoint
      let file_lsp_diagnostics := (fetchDiagnostics edited).getD []
      let grouped := diagnostics_grouped_by_file file_lsp_diagnostics
      let response := genSteps grouped
      ⟨some p, [], [], [edited], 1, response, []⟩

/-- One event of the SSE stream handed to the HTTP caller (`plan.rs` lines
369-403, 441-475, 515-549, 582-616; the block is identical in all four
handlers): the initiation event carrying the session id, a content event
carrying one serialized producer message, or the terminal done event. -/
inductive SseEvent where
  | initial : String → SseEvent
  | content : String → SseEvent
  | terminalDone : String → SseEvent
deriving Repr, DecidableEq

/-- The `init_stream.chain(answer_stream).chain(done_stream)` composition
shared by all four handlers: the initiation event, then the producer's
messages in order, then the terminal done event. -/
def sse_frame (session_id : String) (msgs : List String) : List SseEvent :=
  SseEvent.initial session_id :: msgs.map SseEvent.content
    ++ [SseEvent.terminalDone session_id]

/-- `handle_execute_plan_until` (`plan.rs` lines 406-476): spawn
`execute_plan_until` with a fresh channel and frame its messages between
the initiation and done events. -/
def handle_execute_plan_until (oracle : Nat → Bool) (k : Nat)
    (session_id : String) (storage : Option Plan) : List SseEvent :=
  sse_frame session_id
    ((execute_plan_until oracle k storage).events.map PlanEvent.message)

/-- `handle_append_plan` (`plan.rs` lines 478-550): spawn `append_to_plan`
with a fresh channel and frame its messages between the initiation and
done events. -/
def handle_append_plan (genResult : Option (List PlanStep))
    (debugView : String) (session_id : String) (storage : Option Plan) :
    List SseEvent :=
  sse_frame session_id
    ((append_to_plan storage genResult debugView).events.map AppendEvent.message)

/-- `handle_diagnostics_to_steps` (`plan.rs` lines 331-404): spawn
`generate_steps_from_diagnostics` with a fresh channel and frame its
messages between the initiation and done events. -/
def handle_diagnostics_to_steps
    (fetchDiagnostics : List String → Option (List Diagnostic))
    (genSteps : DiagnosticMap → List PlanStep)
    (session_id : String) (storage : Option Plan) : List SseEvent :=
  sse_frame session_id
    ((generate_steps_from_diagnostics fetchDiagnostics genSteps
        storage).events.map PlanEvent.message)

/-- The progress events `create_plan` (`plan.rs` lines 172-249) sends over
the agent channel, one constructor per distinct message shape: "Generating
plan" at the start, then on success the finished message naming the
storage location and the plan debug view, on failure "Failed to generate
plan". -/
inductive CreateEvent where
  | generatingPlan : CreateEvent
  | finishedPlan : String → String → CreateEvent
  | createFailed : CreateEvent
deriving Repr, DecidableEq

/-- The literal message strings of `create_plan` (`plan.rs` lines 186,
215-221, 234). -/
def CreateEvent.message : CreateEvent → String
  | .generatingPlan => "Generating plan"
  | .finishedPlan path debug =>
      "finished generating plan at [location](" ++ path ++
        ")\nplan_information:\n" ++ debug
  | .createFailed => "Failed to generate plan"

/-- The message sequence of `create_plan` (`plan.rs` lines 172-249): the
generating message, then the finished message when the planning capability
produced a plan (which is then saved), or the failure message when it did
not. -/
def create_plan_events (genResult : Option (List PlanStep))
    (path debug : String) : List CreateEvent :=
  match genResult with
  | some _ => [CreateEvent.generatingPlan, CreateEvent.finishedPlan path debug]
  | none => [CreateEvent.generatingPlan, CreateEvent.createFailed]

/-- `handle_create_plan` (`plan.rs` lines 552-617): spawn `create_plan`
with a fresh channel and frame its messages between the initiation and
done events. -/
def handle_create_plan (genResult : Option (List PlanStep))
    (path debug : String) (session_id : String) : List SseEvent :=
  sse_frame session_id
    ((create_plan_events genResult path debug).map CreateEvent.message)

/-- Modelled from the spec: `PlanService::create_plan` (not in the provided
sources) — builds a fresh plan from generated steps with `checkpoint = None`
and persists it (`create_plan` at `plan.rs` lines 172-249 saves the
generated plan on success and writes nothing on failure). -/
def create_plan (pid : String) (genResult : Option (List PlanStep))
    (storage : Option Plan) : Option Plan :=
  match genResult with
  | none => storage
  | some steps => some ⟨pid, steps, none⟩

/-- Storage contents reachable from an empty store through any sequence of
create, append, execute-until and diagnostics-to-steps operations. -/
inductive Reachable : Option Plan → Prop
  | init : Reachable none
  | createOp (s : Option Plan) (pid : String)
      (genResult : Option (List PlanStep)) :
      Reachable s → Reachable (create_plan pid genResult s)
  | appendOp (s : Option Plan) (genResult : Option (List PlanStep))
      (debugView : String) :
      Reachable s → Reachable (append_to_plan s genResult debugView).storage
  | execOp (s : Option Plan) (oracle : Nat → Bool) (k : Nat) :
      Reachable s → Reachable (execute_plan_until oracle k s).storage
  | diagOp (s : Option Plan)
      (fetchDiagnostics : List String → Option (List Diagnostic))
      (genSteps : DiagnosticMap → List PlanStep) :
      Reachable s →
      Reachable (generate_steps_from_diagnostics fetchDiagnostics genSteps s).storage

/-- Lifetime consistency of an execution count with the checkpoint
semantics of the spec: steps with index up to the checkpoint have been
successfully executed exactly once, all other steps never. -/
def execCountOk (p : Plan) (count : Nat → Nat) : Prop :=
  ∀ i, count i = match p.checkpoint with
    | none => 0
    | some c => if i ≤ c then 1 else 0

/-! Helper lemmas on the execution loop. -/

theorem execLoop_nil (oracle : Nat → Bool) (ck : Option Nat) :
    execLoop oracle [] ck = ⟨ck, [], [], [], [], false⟩ := rfl

theorem execLoop_cons_skip (oracle : Nat → Bool) (idx : Nat) (rest : List Nat)
    (c : Nat) (h : idx ≤ c) :
    execLoop oracle (idx :: rest) (some c) =
      ⟨(execLoop oracle rest (some c)).checkpoint,
       PlanEvent.alreadyExecuted idx c :: (execLoop oracle rest (some c)).events,
       (execLoop oracle rest (some c)).attempted,
       (execLoop oracle rest (some c)).contexts,
       (execLoop oracle rest (some c)).saved,
       (execLoop oracle rest (some c)).halted⟩ := by
  simp [execLoop, h]

theorem execLoop_cons_ok (oracle : Nat → Bool) (idx : Nat) (rest : List Nat)
    (ck : Option Nat) (hg : ¬(ck.isSome ∧ idx ≤ ck.getD 0))
    (ho : oracle idx = true) :
    execLoop oracle (idx :: rest) ck =
      ⟨(execLoop oracle rest (incrementCheckpoint ck)).checkpoint,
       PlanEvent.finishedUntil idx ::
         (execLoop oracle rest (incrementCheckpoint ck)).events,
       idx :: (execLoop oracle rest (incrementCheckpoint ck)).attempted,
       ck.getD 0 :: (execLoop oracle rest (incrementCheckpoint ck)).contexts,
       (incrementCheckpoint ck).getD 0 ::
         (execLoop oracle rest (incrementCheckpoint ck)).saved,
       (execLoop oracle rest (incrementCheckpoint ck)).halted⟩ := by
  simp [execLoop, hg, ho]

theorem execLoop_cons_fail (oracle : Nat → Bool) (idx : Nat) (rest : List Nat)
    (ck : Option Nat) (hg : ¬(ck.isSome ∧ idx ≤ ck.getD 0))
    (ho : oracle idx = false) :
    execLoop oracle (idx :: rest) ck =
      ⟨ck, [PlanEvent.erroredStep idx], [idx], [ck.getD 0], [], true⟩ := by
  simp [execLoop, hg, ho]

theorem execLoop_append_of_not_halted (oracle : Nat → Bool) (l₁ l₂ : List Nat)
    (ck : Option Nat) (h : (execLoop oracle l₁ ck).halted = false) :
    execLoop oracle (l₁ ++ l₂) ck =
      ⟨(execLoop oracle l₂ (execLoop oracle l₁ ck).checkpoint).checkpoint,
       (execLoop oracle l₁ ck).events ++
         (execLoop oracle l₂ (execLoop oracle l₁ ck).checkpoint).events,
       (execLoop oracle l₁ ck).attempted ++
         (execLoop oracle l₂ (execLoop oracle l₁ ck).checkpoint).attempted,
       (execLoop oracle l₁ ck).contexts ++
         (execLoop oracle l₂ (execLoop oracle l₁ ck).checkpoint).contexts,
       (execLoop oracle l₁ ck).saved ++
         (execLoop oracle l₂ (execLoop oracle l₁ ck).checkpoint).saved,
       (execLoop oracle l₂ (execLoop oracle l₁ ck).checkpoint).halted⟩ := by
  induction l₁ generalizing ck with
  | nil => simp [execLoop]
  | cons idx rest ih =>
    by_cases hg : ck.isSome ∧ idx ≤ ck.getD 0
    · obtain ⟨hs, hle⟩ := hg
      obtain ⟨c, rfl⟩ := Option.isSome_iff_exists.mp hs
      simp only [Option.getD_some] at hle
      rw [execLoop_cons_skip oracle idx rest c hle] at h
      simp only at h
      rw [List.cons_append, execLoop_cons_skip oracle idx _ c hle,
        execLoop_cons_skip oracle idx rest c hle, ih _ h]
      simp
    · cases ho : oracle idx with
      | true =>
        rw [execLoop_cons_ok oracle idx rest ck hg ho] at h
        simp only at h
        rw [List.cons_append, execLoop_cons_ok oracle idx _ ck hg ho,
          execLoop_cons_ok oracle idx rest ck hg ho, ih _ h]
        simp
      | false =>
        rw [execLoop_cons_fail oracle idx rest ck hg ho] at h
        simp at h

theorem execLoop_append_of_halted (oracle : Nat → Bool) (l₁ l₂ : List Nat)
    (ck : Option Nat) (h : (execLoop oracle l₁ ck).halted = true) :
    execLoop oracle (l₁ ++ l₂) ck = execLoop oracle l₁ ck := by
  induction l₁ generalizing ck with
  | nil => simp [execLoop] at h
  | cons idx rest ih =>
    by_cases hg : ck.isSome ∧ idx ≤ ck.getD 0
    · obtain ⟨hs, hle⟩ := hg
      obtain ⟨c, rfl⟩ := Option.isSome_iff_exists.mp hs
      simp only [Option.getD_some] at hle
      rw [execLoop_cons_skip oracle idx rest c hle] at h
      simp only at h
      rw [List.cons_append, execLoop_cons_skip oracle idx _ c hle,
        execLoop_cons_skip oracle idx rest c hle, ih _ h]
    · cases ho : oracle idx with
      | true =>
        rw [execLoop_cons_ok oracle idx rest ck hg ho] at h
        simp only at h
        rw [List.cons_append, execLoop_cons_ok oracle idx _ ck hg ho,
          execLoop_cons_ok oracle idx rest ck hg ho, ih _ h]
      | false =>
        rw [List.cons_append, execLoop_cons_fail oracle idx _ ck hg ho,
          execLoop_cons_fail oracle idx rest ck hg ho]

theorem execLoop_skip_all (oracle : Nat → Bool) (l : List Nat) (c : Nat)
    (h : ∀ i ∈ l, i ≤ c) :
    execLoop oracle l (some c) =
      ⟨some c, l.map (fun i => PlanEvent.alreadyExecuted i c), [], [], [], false⟩ := by
  induction l with
  | nil => rfl
  | cons idx rest ih =>
    rw [execLoop_cons_skip oracle idx rest c (h idx (by simp)),
      ih (fun i hi => h i (by simp [hi]))]
    simp

theorem execLoop_success_run (oracle : Nat → Bool) (m c : Nat)
    (h : ∀ i, c < i → i ≤ c + m → oracle i = true) :
    execLoop oracle (List.range' (c + 1) m) (some c) =
      ⟨some (c + m), (List.range' (c + 1) m).map PlanEvent.finishedUntil,
       List.range' (c + 1) m, List.range' c m, List.range' (c + 1) m, false⟩ := by
  induction m generalizing c with
  | zero => simp [execLoop]
  | succ n ih =>
    have hg : ¬((some c).isSome ∧ c + 1 ≤ (some c).getD 0) := by simp
    have ho : oracle (c + 1) = true := h (c + 1) (by omega) (by omega)
    have h1 : c + 1 + n = c + (n + 1) := by omega
    rw [List.range'_succ]
    rw [execLoop_cons_ok oracle (c + 1) _ (some c) hg ho]
    have hck' : incrementCheckpoint (some c) = some (c + 1) := rfl
    rw [hck', ih (c + 1) (fun i h₁ h₂ => h i (by omega) (by omega))]
    simp [h1, List.range'_succ]

theorem execLoop_success_none (oracle : Nat → Bool) (m : Nat)
    (h : ∀ i, i ≤ m → oracle i = true) :
    execLoop oracle (List.range' 0 (m + 1)) none =
      ⟨some m, (List.range' 0 (m + 1)).map PlanEvent.finishedUntil,
       List.range' 0 (m + 1), 0 :: List.range' 0 m, List.range' 0 (m + 1), false⟩ := by
  have hg : ¬((none : Option Nat).isSome ∧ 0 ≤ (none : Option Nat).getD 0) := by simp
  rw [List.range'_succ]
  rw [execLoop_cons_ok oracle 0 _ none hg (h 0 (by omega))]
  have hck' : incrementCheckpoint none = some 0 := rfl
  rw [hck', show (0 : Nat) + 1 = 0 + 1 by rfl,
    execLoop_success_run oracle m 0 (fun i h₁ h₂ => h i (by omega))]
  simp [List.range'_succ]

theorem execLoop_attempt_head (oracle : Nat → Bool) (idx : Nat) (rest : List Nat)
    (ck : Option Nat) (hg : ¬(ck.isSome ∧ idx ≤ ck.getD 0)) :
    (execLoop oracle (idx :: rest) ck).attempted.head? = some idx ∧
    (execLoop oracle (idx :: rest) ck).contexts.head? = some (ck.getD 0) := by
  cases ho : oracle idx with
  | true => rw [execLoop_cons_ok oracle idx rest ck hg ho]; simp
  | false => rw [execLoop_cons_fail oracle idx rest ck hg ho]; simp

theorem execLoop_checkpoint_lt (oracle : Nat → Bool) (idxs : List Nat)
    (ck : Option Nat) (n : Nat) (hidx : ∀ i ∈ idxs, i < n)
    (hck : ∀ c, ck = some c → c < n) :
    ∀ c, (execLoop oracle idxs ck).checkpoint = some c → c < n := by
  induction idxs generalizing ck with
  | nil => intro c hc; exact hck c (by simpa [execLoop] using hc)
  | cons idx rest ih =>
    intro c hc
    by_cases hg : ck.isSome ∧ idx ≤ ck.getD 0
    · obtain ⟨hs, hle⟩ := hg
      obtain ⟨c₀, rfl⟩ := Option.isSome_iff_exists.mp hs
      simp only [Option.getD_some] at hle
      rw [execLoop_cons_skip oracle idx rest c₀ hle] at hc
      simp only at hc
      exact ih (some c₀) (fun i hi => hidx i (by simp [hi])) hck c hc
    · cases ho : oracle idx with
      | true =>
        rw [execLoop_cons_ok oracle idx rest ck hg ho] at hc
        simp only at hc
        refine ih (incrementCheckpoint ck) (fun i hi => hidx i (by simp [hi])) ?_ c hc
        intro c' hc'
        have hidx0 := hidx idx (by simp)
        cases ck with
        | none => simp [incrementCheckpoint] at hc'; omega
        | some c₀ =>
          simp [incrementCheckpoint] at hc'
          have : ¬ idx ≤ c₀ := by
            intro hcon; exact hg ⟨by simp, by simpa using hcon⟩
          omega
      | false =>
        rw [execLoop_cons_fail oracle idx rest ck hg ho] at hc
        simp only at hc
        exact hck c hc

theorem lastSavedCk_cons (x : Nat) (l : List Nat) (ck : Option Nat) :
    lastSavedCk (x :: l) ck = lastSavedCk l (some x) := by
  cases l with
  | nil => rfl
  | cons y ys =>
    unfold lastSavedCk
    rw [List.getLast?_cons_cons]
    cases h : (y :: ys).getLast? with
    | none => simp at h
    | some v => rfl

theorem execLoop_saved_last (oracle : Nat → Bool) (idxs : List Nat)
    (ck : Option Nat) :
    lastSavedCk (execLoop oracle idxs ck).saved ck =
      (execLoop oracle idxs ck).checkpoint := by
  induction idxs generalizing ck with
  | nil => simp [execLoop, lastSavedCk]
  | cons idx rest ih =>
    by_cases hg : ck.isSome ∧ idx ≤ ck.getD 0
    · obtain ⟨hs, hle⟩ := hg
      obtain ⟨c₀, rfl⟩ := Option.isSome_iff_exists.mp hs
      simp only [Option.getD_some] at hle
      rw [execLoop_cons_skip oracle idx rest c₀ hle]
      simpa using ih (some c₀)
    · cases ho : oracle idx with
      | true =>
        rw [execLoop_cons_ok oracle idx rest ck hg ho]
        simp only
        have hinc : some ((incrementCheckpoint ck).getD 0) = incrementCheckpoint ck := by
          cases ck <;> rfl
        rw [lastSavedCk_cons, hinc]
        exact ih (incrementCheckpoint ck)
      | false =>
        rw [execLoop_cons_fail oracle idx rest ck hg ho]
        simp [lastSavedCk]

theorem execLoop_not_halted_eq (oracle : Nat → Bool) (idxs : List Nat)
    (ck : Option Nat) (h : (execLoop oracle idxs ck).halted = false) :
    execLoop oracle idxs ck = execLoop (fun _ => true) idxs ck := by
  induction idxs generalizing ck with
  | nil => rfl
  | cons idx rest ih =>
    by_cases hg : ck.isSome ∧ idx ≤ ck.getD 0
    · obtain ⟨hs, hle⟩ := hg
      obtain ⟨c₀, rfl⟩ := Option.isSome_iff_exists.mp hs
      simp only [Option.getD_some] at hle
      rw [execLoop_cons_skip oracle idx rest c₀ hle] at h ⊢
      simp only at h
      rw [execLoop_cons_skip (fun _ => true) idx rest c₀ hle, ih (some c₀) h]
    · cases ho : oracle idx with
      | true =>
        rw [execLoop_cons_ok oracle idx rest ck hg ho] at h ⊢
        simp only at h
        rw [execLoop_cons_ok (fun _ => true) idx rest ck hg rfl,
          ih (incrementCheckpoint ck) h]
      | false =>
        rw [execLoop_cons_fail oracle idx rest ck hg ho] at h
        simp at h

theorem planIdxs_eq_range (p : Plan) (k : Nat) :
    planIdxs p k = List.range (min (k + 1) p.steps.length) := by
  unfold planIdxs
  rcases le_or_lt p.steps.length (k + 1) with hle | hlt
  · rw [Nat.min_eq_right hle, List.filter_eq_self.mpr]
    intro a ha
    simp only [List.mem_range] at ha
    simp only [decide_eq_true_eq]
    omega
  · have hmin : min (k + 1) p.steps.length = k + 1 := Nat.min_eq_left (by omega)
    rw [hmin]
    have hsplit : List.range p.steps.length =
        List.range (k + 1) ++ List.range' (k + 1) (p.steps.length - (k + 1)) := by
      rw [List.range_eq_range', List.range_eq_range']
      have := List.range'_append 0 (k + 1) (p.steps.length - (k + 1)) 1
      simp only [Nat.one_mul, Nat.zero_add] at this
      calc List.range' 0 p.steps.length
          = List.range' 0 (p.steps.length - (k + 1) + (k + 1)) := by congr 1; omega
        _ = List.range' 0 (k + 1) ++ List.range' (k + 1) (p.steps.length - (k + 1)) :=
            this.symm
    rw [hsplit, List.filter_append]
    have h₁ : (List.range (k + 1)).filter (fun i => decide (i ≤ k)) =
        List.range (k + 1) := by
      rw [List.filter_eq_self]
      intro a ha
      simp only [List.mem_range] at ha
      simp only [decide_eq_true_eq]
      omega
    have h₂ : (List.range' (k + 1) (p.steps.length - (k + 1))).filter
        (fun i => decide (i ≤ k)) = [] := by
      rw [List.filter_eq_nil_iff]
      intro a ha
      rw [List.mem_range'_1] at ha
      simp only [decide_eq_true_eq]
      omega
    rw [h₁, h₂, List.append_nil]

theorem execute_some_fields (oracle : Nat → Bool) (k : Nat) (p : Plan) :
    (execute_plan_until oracle k (some p)).events =
      (execLoop oracle (planIdxs p k) p.checkpoint).events ∧
    (execute_plan_until oracle k (some p)).attempted =
      (execLoop oracle (planIdxs p k) p.checkpoint).attempted ∧
    (execute_plan_until oracle k (some p)).contexts =
      (execLoop oracle (planIdxs p k) p.checkpoint).contexts ∧
    (execute_plan_until oracle k (some p)).halted =
      (execLoop oracle (planIdxs p k) p.checkpoint).halted := by
  refine ⟨rfl, rfl, rfl, rfl⟩

theorem execute_some_storage (oracle : Nat → Bool) (k : Nat) (p : Plan) :
    (execute_plan_until oracle k (some p)).storage =
      some ⟨p.id, p.steps, (execLoop oracle (planIdxs p k) p.checkpoint).checkpoint⟩ := by
  show some (Plan.mk p.id p.steps
      (lastSavedCk (execLoop oracle (planIdxs p k) p.checkpoint).saved p.checkpoint)) = _
  rw [execLoop_saved_last oracle (planIdxs p k) p.checkpoint]

theorem execLoop_true_range_checkpoint (m : Nat) (ck : Option Nat) (hm : 1 ≤ m) :
    ∃ c₁, (execLoop (fun _ => true) (List.range m) ck).checkpoint = some c₁ ∧
      m - 1 ≤ c₁ := by
  cases ck with
  | none =>
    obtain ⟨n, rfl⟩ : ∃ n, m = n + 1 := ⟨m - 1, by omega⟩
    rw [List.range_eq_range', execLoop_success_none (fun _ => true) n (fun i _ => rfl)]
    exact ⟨n, rfl, by omega⟩
  | some c =>
    rcases le_or_lt m (c + 1) with hle | hlt
    · rw [execLoop_skip_all (fun _ => true) (List.range m) c
        (fun i hi => by rw [List.mem_range] at hi; omega)]
      exact ⟨c, rfl, by omega⟩
    · have hsplit : List.range m =
          List.range (c + 1) ++ List.range' (c + 1) (m - (c + 1)) := by
        rw [List.range_eq_range', List.range_eq_range']
        have := List.range'_append 0 (c + 1) (m - (c + 1)) 1
        simp only [Nat.one_mul, Nat.zero_add] at this
        calc List.range' 0 m
            = List.range' 0 (m - (c + 1) + (c + 1)) := by congr 1; omega
          _ = List.range' 0 (c + 1) ++ List.range' (c + 1) (m - (c + 1)) := this.symm
      have hskip := execLoop_skip_all (fun _ => true) (List.range (c + 1)) c
        (fun i hi => by rw [List.mem_range] at hi; omega)
      rw [hsplit, execLoop_append_of_not_halted (fun _ => true) _ _ (some c)
        (by rw [hskip]), hskip]
      simp only
      rw [execLoop_success_run (fun _ => true) (m - (c + 1)) c (fun i _ _ => rfl)]
      exact ⟨c + (m - (c + 1)), rfl, by omega⟩

/-! Helper lemmas on the diagnostics grouping fold. -/

theorem lookupMap_mapPush (m : DiagnosticMap) (d : Diagnostic) (p : String) :
    lookupMap (mapPush m d) p =
      if d.fs_file_path = p then some ((lookupMap m p).getD [] ++ [d])
      else lookupMap m p := by
  induction m with
  | nil =>
    by_cases hp : d.fs_file_path = p <;> simp [mapPush, lookupMap, hp]
  | cons entry rest ih =>
    obtain ⟨q, l⟩ := entry
    by_cases hq : q = d.fs_file_path <;> by_cases hp : q = p
    · have hdp : d.fs_file_path = p := by rw [← hq, hp]
      simp [mapPush, lookupMap, hq, hp, hdp]
    · have hdp : ¬ d.fs_file_path = p := by rw [← hq]; exact hp
      simp [mapPush, lookupMap, hq, hp, hdp]
    · have hdp : ¬ d.fs_file_path = p := fun h => hq (hp.trans h.symm)
      have hq' : ¬ p = d.fs_file_path := by rw [← hp]; exact hq
      simp [mapPush, lookupMap, hq, hp, hdp, hq']
    · simp [mapPush, lookupMap, hq, hp, ih]

theorem lookupMap_foldl (ds : List Diagnostic) (m : DiagnosticMap) (p : String) :
    lookupMap (ds.foldl mapPush m) p =
      if (ds.filter (fun d => d.fs_file_path = p)) = [] then lookupMap m p
      else some ((lookupMap m p).getD [] ++
        ds.filter (fun d => d.fs_file_path = p)) := by
  induction ds generalizing m with
  | nil => simp
  | cons d ds ih =>
    rw [List.foldl_cons, ih (mapPush m d)]
    by_cases hp : d.fs_file_path = p
    · have hfil : (d :: ds).filter (fun x => decide (x.fs_file_path = p)) =
          d :: ds.filter (fun x => decide (x.fs_file_path = p)) := by
        simp [List.filter_cons, hp]
      rw [hfil, lookupMap_mapPush, if_pos hp]
      by_cases hnil : ds.filter (fun x => decide (x.fs_file_path = p)) = []
      · simp [hnil]
      · simp only [if_neg hnil, if_neg (by simp : ¬ (d :: ds.filter
          (fun x => decide (x.fs_file_path = p)) = []))]
        simp
    · have hfil : (d :: ds).filter (fun x => decide (x.fs_file_path = p)) =
          ds.filter (fun x => decide (x.fs_file_path = p)) := by
        simp [List.filter_cons, hp]
      rw [hfil, lookupMap_mapPush, if_neg hp]

/-! Component-form restatements, convenient for rewriting. -/

theorem planIdxs_mk (pid : String) (steps : List PlanStep) (ck : Option Nat)
    (k : Nat) :
    planIdxs ⟨pid, steps, ck⟩ k = List.range (min (k + 1) steps.length) := by
  rw [planIdxs_eq_range]

theorem execute_mk_storage (oracle : Nat → Bool) (k : Nat) (pid : String)
    (steps : List PlanStep) (ck : Option Nat) :
    (execute_plan_until oracle k (some ⟨pid, steps, ck⟩)).storage =
      some ⟨pid, steps,
        (execLoop oracle (List.range (min (k + 1) steps.length)) ck).checkpoint⟩ := by
  have h := execute_some_storage oracle k ⟨pid, steps, ck⟩
  rw [planIdxs_mk] at h
  exact h

theorem execute_mk_halted (oracle : Nat → Bool) (k : Nat) (pid : String)
    (steps : List PlanStep) (ck : Option Nat) :
    (execute_plan_until oracle k (some ⟨pid, steps, ck⟩)).halted =
      (execLoop oracle (List.range (min (k + 1) steps.length)) ck).halted := by
  have h : (execute_plan_until oracle k (some ⟨pid, steps, ck⟩)).halted =
      (execLoop oracle (planIdxs ⟨pid, steps, ck⟩ k) ck).halted := rfl
  rw [planIdxs_mk] at h
  exact h

theorem execute_mk_attempted (oracle : Nat → Bool) (k : Nat) (pid : String)
    (steps : List PlanStep) (ck : Option Nat) :
    (execute_plan_until oracle k (some ⟨pid, steps, ck⟩)).attempted =
      (execLoop oracle (List.range (min (k + 1) steps.length)) ck).attempted := by
  have h : (execute_plan_until oracle k (some ⟨pid, steps, ck⟩)).attempted =
      (execLoop oracle (planIdxs ⟨pid, steps, ck⟩ k) ck).attempted := rfl
  rw [planIdxs_mk] at h
  exact h

theorem execute_mk_events (oracle : Nat → Bool) (k : Nat) (pid : String)
    (steps : List PlanStep) (ck : Option Nat) :
    (execute_plan_until oracle k (some ⟨pid, steps, ck⟩)).events =
      (execLoop oracle (List.range (min (k + 1) steps.length)) ck).events := by
  have h : (execute_plan_until oracle k (some ⟨pid, steps, ck⟩)).events =
      (execLoop oracle (planIdxs ⟨pid, steps, ck⟩ k) ck).events := rfl
  rw [planIdxs_mk] at h
  exact h

theorem execute_mk_contexts (oracle : Nat → Bool) (k : Nat) (pid : String)
    (steps : List PlanStep) (ck : Option Nat) :
    (execute_plan_until oracle k (some ⟨pid, steps, ck⟩)).contexts =
      (execLoop oracle (List.range (min (k + 1) steps.length)) ck).contexts := by
  have h : (execute_plan_until oracle k (some ⟨pid, steps, ck⟩)).contexts =
      (execLoop oracle (planIdxs ⟨pid, steps, ck⟩ k) ck).contexts := rfl
  rw [planIdxs_mk] at h
  exact h

theorem range'_split (s n a : Nat) (h : a ≤ n) :
    List.range' s n = List.range' s a ++ List.range' (s + a) (n - a) := by
  have happ := List.range'_append s a (n - a) 1
  simp only [Nat.one_mul] at happ
  calc List.range' s n = List.range' s (n - a + a) := by congr 1; omega
    _ = _ := happ.symm

theorem range'_cons_split (s n : Nat) (h : 1 ≤ n) :
    List.range' s n = s :: List.range' (s + 1) (n - 1) := by
  obtain ⟨n₁, rfl⟩ : ∃ n₁, n = n₁ + 1 := ⟨n - 1, by omega⟩
  rw [List.range'_succ]
  simp

theorem range_split (a b : Nat) (h : a ≤ b) :
    List.range b = List.range a ++ List.range' a (b - a) := by
  rw [List.range_eq_range', List.range_eq_range', range'_split 0 b a h]
  simp

theorem filter_isError_finished (l : List Nat) :
    (l.map PlanEvent.finishedUntil).filter PlanEvent.isError = [] := by
  induction l with
  | nil => rfl
  | cons x xs ih => simp [PlanEvent.isError, ih]

theorem filter_isError_already (l : List Nat) (c : Nat) :
    (l.map (fun j => PlanEvent.alreadyExecuted j c)).filter PlanEvent.isError
      = [] := by
  induction l with
  | nil => rfl
  | cons x xs ih => simp [PlanEvent.isError, ih]

theorem execLoop_fail_run (oracle : Nat → Bool) (m i : Nat) (ck : Option Nat)
    (hre : resumeIdx ck ≤ i) (him : i < m)
    (hbefore : ∀ j, resumeIdx ck ≤ j → j < i → oracle j = true)
    (hfail : oracle i = false) :
    (execLoop oracle (List.range m) ck).halted = true ∧
    (execLoop oracle (List.range m) ck).checkpoint =
      (if i = 0 then ck else some (i - 1)) ∧
    (execLoop oracle (List.range m) ck).events.filter PlanEvent.isError =
      [PlanEvent.erroredStep i] ∧
    (∀ j ∈ (execLoop oracle (List.range m) ck).attempted, j ≤ i) := by
  cases ck with
  | none =>
    simp only [resumeIdx] at hre hbefore
    cases i with
    | zero =>
      have hm : List.range m = 0 :: List.range' (0 + 1) (m - 1) := by
        rw [List.range_eq_range', range'_cons_split 0 m (by omega)]
      have hg : ¬((none : Option Nat).isSome ∧ 0 ≤ (none : Option Nat).getD 0) := by
        simp
      rw [hm, execLoop_cons_fail oracle 0 _ none hg hfail]
      refine ⟨rfl, by simp, by simp [PlanEvent.isError], ?_⟩
      intro j hj
      simp at hj
      omega
    | succ n =>
      have hm : List.range m =
          List.range' 0 (n + 1) ++
            ((n + 1) :: List.range' (n + 1 + 1) (m - (n + 1) - 1)) := by
        rw [List.range_eq_range', range'_split 0 m (n + 1) (by omega),
          Nat.zero_add, range'_cons_split (n + 1) (m - (n + 1)) (by omega)]
      have hsn := execLoop_success_none oracle n
        (fun j hj => hbefore j (by omega) (by omega))
      have hg : ¬((some n).isSome ∧ n + 1 ≤ (some n).getD 0) := by
        simp only [Option.isSome_some, Option.getD_some, true_and]
        omega
      rw [hm, execLoop_append_of_not_halted oracle _ _ none (by rw [hsn]), hsn]
      simp only
      rw [execLoop_cons_fail oracle (n + 1) _ (some n) hg hfail]
      refine ⟨rfl, by simp, ?_, ?_⟩
      · rw [List.filter_append, filter_isError_finished]
        simp [PlanEvent.isError]
      · intro j hj
        rcases List.mem_append.mp hj with hj | hj
        · rw [List.mem_range'_1] at hj; omega
        · simp at hj; omega
  | some c =>
    simp only [resumeIdx] at hre hbefore
    have hm : List.range m =
        List.range (c + 1) ++ (List.range' (c + 1) (i - c - 1) ++
          (i :: List.range' (i + 1) (m - i - 1))) := by
      have h₁ : List.range m = List.range (c + 1) ++ List.range' (c + 1) (m - (c + 1)) :=
        range_split (c + 1) m (by omega)
      have h₂ : List.range' (c + 1) (m - (c + 1)) =
          List.range' (c + 1) (i - c - 1) ++
            List.range' (c + 1 + (i - c - 1)) (m - (c + 1) - (i - c - 1)) :=
        range'_split (c + 1) (m - (c + 1)) (i - c - 1) (by omega)
      have h₃ : c + 1 + (i - c - 1) = i := by omega
      have h₄ : m - (c + 1) - (i - c - 1) = m - i := by omega
      rw [h₁, h₂, h₃, h₄, range'_cons_split i (m - i) (by omega)]
    have hskip := execLoop_skip_all oracle (List.range (c + 1)) c
      (fun j hj => by rw [List.mem_range] at hj; omega)
    have hrun := execLoop_success_run oracle (i - c - 1) c
      (fun j h₁ h₂ => hbefore j (by omega) (by omega))
    have hc1 : c + (i - c - 1) = i - 1 := by omega
    have hg : ¬((some (i - 1)).isSome ∧ i ≤ (some (i - 1)).getD 0) := by
      simp only [Option.isSome_some, Option.getD_some, true_and]
      omega
    rw [hm, execLoop_append_of_not_halted oracle _ _ (some c) (by rw [hskip]),
      hskip]
    simp only
    rw [execLoop_append_of_not_halted oracle _ _ (some c) (by rw [hrun]), hrun]
    simp only
    rw [hc1, execLoop_cons_fail oracle i _ (some (i - 1)) hg hfail]
    refine ⟨rfl, by simp [show ¬ i = 0 by omega], ?_, ?_⟩
    · rw [List.filter_append, List.filter_append, filter_isError_already,
        filter_isError_finished]
      simp [PlanEvent.isError]
    · intro j hj
      simp only [List.nil_append] at hj
      rcases List.mem_append.mp hj with hj | hj
      · rw [List.mem_range'_1] at hj; omega
      · simp at hj; omega

theorem execLoop_resume_head (oracle : Nat → Bool) (m i : Nat) (ck : Option Nat)
    (hre : resumeIdx ck = i) (him : i < m) :
    (execLoop oracle (List.range m) ck).attempted.head? = some i := by
  cases ck with
  | none =>
    simp only [resumeIdx] at hre
    subst hre
    have hm : List.range m = 0 :: List.range' (0 + 1) (m - 1) := by
      rw [List.range_eq_range', range'_cons_split 0 m (by omega)]
    rw [hm]
    exact (execLoop_attempt_head oracle 0 _ none (by simp)).1
  | some c =>
    simp only [resumeIdx] at hre
    subst hre
    have hm : List.range m =
        List.range (c + 1) ++
          ((c + 1) :: List.range' (c + 1 + 1) (m - (c + 1) - 1)) := by
      rw [range_split (c + 1) m (by omega),
        range'_cons_split (c + 1) (m - (c + 1)) (by omega)]
    have hskip := execLoop_skip_all oracle (List.range (c + 1)) c
      (fun j hj => by rw [List.mem_range] at hj; omega)
    have hg : ¬((some c).isSome ∧ c + 1 ≤ (some c).getD 0) := by
      simp only [Option.isSome_some, Option.getD_some, true_and]
      omega
    rw [hm, execLoop_append_of_not_halted oracle _ _ (some c) (by rw [hskip]),
      hskip]
    simp only [List.nil_append]
    exact (execLoop_attempt_head oracle (c + 1) _ (some c) hg).1

theorem sse_frame_spec (sid : String) (msgs : List String) :
    sse_frame sid msgs = SseEvent.initial sid ::
      (msgs.map SseEvent.content ++ [SseEvent.terminalDone sid]) ∧
    (sse_frame sid msgs).head? = some (SseEvent.initial sid) ∧
    (sse_frame sid msgs).getLast? = some (SseEvent.terminalDone sid) := by
  refine ⟨rfl, rfl, ?_⟩
  show (SseEvent.initial sid ::
      (msgs.map SseEvent.content ++ [SseEvent.terminalDone sid])).getLast? = _
  rw [← List.cons_append, List.getLast?_concat]

/-! The claims. -/

/-- C9 (confirmed): for every flat collection of diagnostic records, the
grouping fold of `generate_steps_from_diagnostics` maps each file path to
exactly the records tagged with that path, preserving encounter order
within the file and performing no deduplication (the per-path list is the
order-preserving, duplicate-keeping filter of the input), and paths with no
records are absent from the map. -/
theorem diagnostics_grouping_spec (ds : List Diagnostic) (p : String) :
    lookupMap (diagnostics_grouped_by_file ds) p =
      if ds.filter (fun d => d.fs_file_path = p) = [] then none
      else some (ds.filter (fun d => d.fs_file_path = p)) := by
  unfold diagnostics_grouped_by_file
  rw [lookupMap_foldl]
  by_cases h : ds.filter (fun d => decide (d.fs_file_path = p)) = [] <;>
    simp [h, lookupMap]

/-- C7 (confirmed): on a plan whose checkpoint is `none`,
`generate_steps_from_diagnostics` performs zero diagnostic fetches, zero
planning-capability calls, appends zero steps, and leaves storage
untouched. -/
theorem diagnostics_noop_when_no_checkpoint
    (fetchDiagnostics : List String → Option (List Diagnostic))
    (genSteps : DiagnosticMap → List PlanStep) (pid : String)
    (steps : List PlanStep) :
    generate_steps_from_diagnostics fetchDiagnostics genSteps
        (some ⟨pid, steps, none⟩) =
      ⟨some ⟨pid, steps, none⟩, [], [], [], 0, [], []⟩ := rfl

/-- C4 (amended): on a plan whose checkpoint is `some c`,
`generate_steps_from_diagnostics` fetches diagnostics for the files edited
up to the checkpoint, groups them, and asks the planning capability for new
steps — but the response is discarded: no steps are appended, nothing is
saved, and storage is left unchanged; the steps are NOT handed back through
the append path. -/
theorem diagnostics_steps_discarded
    (fetchDiagnostics : List String → Option (List Diagnostic))
    (genSteps : DiagnosticMap → List PlanStep) (pid : String)
    (steps : List PlanStep) (c : Nat) :
    generate_steps_from_diagnostics fetchDiagnostics genSteps
        (some ⟨pid, steps, some c⟩) =
      ⟨some ⟨pid, steps, some c⟩, [], [],
       [get_edited_files ⟨pid, steps, some c⟩ c], 1,
       genSteps (diagnostics_grouped_by_file
         ((fetchDiagnostics (get_edited_files ⟨pid, steps, some c⟩ c)).getD [])),
       []⟩ := rfl

/-- C4 counterexample: a concrete executed plan for which the planning
capability synthesizes a non-empty step list from the diagnostic map, yet
the plan's step sequence is unchanged and nothing is persisted — refuting
the claim that the synthesized steps are appended and the extended plan
saved. -/
theorem diagnostics_append_claim_cex :
    (generate_steps_from_diagnostics
        (fun _ => some [⟨"main.rs", "type error"⟩])
        (fun _ => [⟨"fix the type error in main.rs", ["main.rs"]⟩])
        (some ⟨"plan-4", [⟨"edit main", ["main.rs"]⟩], some 0⟩)).discardedResponse =
      [⟨"fix the type error in main.rs", ["main.rs"]⟩] ∧
    (generate_steps_from_diagnostics
        (fun _ => some [⟨"main.rs", "type error"⟩])
        (fun _ => [⟨"fix the type error in main.rs", ["main.rs"]⟩])
        (some ⟨"plan-4", [⟨"edit main", ["main.rs"]⟩], some 0⟩)).appended = [] ∧
    (generate_steps_from_diagnostics
        (fun _ => some [⟨"main.rs", "type error"⟩])
        (fun _ => [⟨"fix the type error in main.rs", ["main.rs"]⟩])
        (some ⟨"plan-4", [⟨"edit main", ["main.rs"]⟩], some 0⟩)).storage =
      some ⟨"plan-4", [⟨"edit main", ["main.rs"]⟩], some 0⟩ ∧
    (generate_steps_from_diagnostics
        (fun _ => some [⟨"main.rs", "type error"⟩])
        (fun _ => [⟨"fix the type error in main.rs", ["main.rs"]⟩])
        (some ⟨"plan-4", [⟨"edit main", ["main.rs"]⟩], some 0⟩)).saved = [] :=
  ⟨rfl, rfl, rfl, rfl⟩

/-- C6 (confirmed): `append_to_plan` fails distinctly on load failure
(single load-failed message) versus step-generation failure (generating
message followed by the add-steps-failed message); in the latter case the
plan's steps and checkpoint are unmodified, and no snapshot is written; the
two failure messages are distinct strings. -/
theorem append_error_paths_distinct (pid : String) (steps : List PlanStep)
    (ck : Option Nat) (g : Option (List PlanStep)) (d : String) :
    (append_to_plan none g d).events = [AppendEvent.loadFailed] ∧
    (append_to_plan none g d).storage = none ∧
    (append_to_plan none g d).saved = [] ∧
    (append_to_plan (some ⟨pid, steps, ck⟩) none d).events =
      [AppendEvent.generatingSteps, AppendEvent.addStepsFailed] ∧
    (append_to_plan (some ⟨pid, steps, ck⟩) none d).storage =
      some ⟨pid, steps, ck⟩ ∧
    (append_to_plan (some ⟨pid, steps, ck⟩) none d).saved = [] ∧
    AppendEvent.loadFailed.message ≠ AppendEvent.addStepsFailed.message :=
  ⟨rfl, rfl, rfl, rfl, rfl, rfl, by decide⟩

/-- C8 (confirmed): for each of the four streaming handlers — execute-until,
append, diagnostics-to-steps, create — the stream delivered to the caller
is exactly one initiation event carrying the session id, then that
handler's producer messages as content events in producer order, then one
terminal done event; and the stream reaches the terminal marker for every
input, including a failed load, a halted (mid-loop-errored) orchestration,
and a failed step generation (all internal failures are just more producer
messages). -/
theorem sse_stream_framing (oracle : Nat → Bool) (k : Nat)
    (genResult createResult : Option (List PlanStep))
    (debugView path debug : String)
    (fetchDiagnostics : List String → Option (List Diagnostic))
    (genSteps : DiagnosticMap → List PlanStep)
    (sid : String) (storage : Option Plan) :
    (handle_execute_plan_until oracle k sid storage =
      SseEvent.initial sid ::
        (((execute_plan_until oracle k storage).events.map
            PlanEvent.message).map SseEvent.content
          ++ [SseEvent.terminalDone sid]) ∧
     (handle_execute_plan_until oracle k sid storage).head? =
       some (SseEvent.initial sid) ∧
     (handle_execute_plan_until oracle k sid storage).getLast? =
       some (SseEvent.terminalDone sid)) ∧
    (handle_append_plan genResult debugView sid storage =
      SseEvent.initial sid ::
        (((append_to_plan storage genResult debugView).events.map
            AppendEvent.message).map SseEvent.content
          ++ [SseEvent.terminalDone sid]) ∧
     (handle_append_plan genResult debugView sid storage).head? =
       some (SseEvent.initial sid) ∧
     (handle_append_plan genResult debugView sid storage).getLast? =
       some (SseEvent.terminalDone sid)) ∧
    (handle_diagnostics_to_steps fetchDiagnostics genSteps sid storage =
      SseEvent.initial sid ::
        (((generate_steps_from_diagnostics fetchDiagnostics genSteps
            storage).events.map PlanEvent.message).map SseEvent.content
          ++ [SseEvent.terminalDone sid]) ∧
     (handle_diagnostics_to_steps fetchDiagnostics genSteps sid
        storage).head? = some (SseEvent.initial sid) ∧
     (handle_diagnostics_to_steps fetchDiagnostics genSteps sid
        storage).getLast? = some (SseEvent.terminalDone sid)) ∧
    (handle_create_plan createResult path debug sid =
      SseEvent.initial sid ::
        (((create_plan_events createResult path debug).map
            CreateEvent.message).map SseEvent.content
          ++ [SseEvent.terminalDone sid]) ∧
     (handle_create_plan createResult path debug sid).head? =
       some (SseEvent.initial sid) ∧
     (handle_create_plan createResult path debug sid).getLast? =
       some (SseEvent.terminalDone sid)) :=
  ⟨sse_frame_spec sid _, sse_frame_spec sid _, sse_frame_spec sid _,
   sse_frame_spec sid _⟩

/-- C10 (confirmed): for the same step sequence, the context prepared for
the first not-yet-executed step is the same whether the checkpoint is
`none` or `some 0`: `execute_plan_until` passes checkpoint value 0 to
`prepare_context` in both cases, since `checkpoint().unwrap_or_default()`
collapses `none` to 0. -/
theorem prepare_context_none_vs_some_zero (oracle : Nat → Bool)
    (pid pid' : String) (steps : List PlanStep) (k : Nat)
    (hlen : 2 ≤ steps.length) (hk : 1 ≤ k) :
    (execute_plan_until oracle k (some ⟨pid, steps, none⟩)).contexts.head? =
      some 0 ∧
    (execute_plan_until oracle k (some ⟨pid', steps, some 0⟩)).contexts.head? =
      some 0 := by
  have hmin : 2 ≤ min (k + 1) steps.length := le_min (by omega) hlen
  obtain ⟨m', hm'⟩ : ∃ m', min (k + 1) steps.length = m' + 2 :=
    ⟨min (k + 1) steps.length - 2, by omega⟩
  have hrange : List.range (min (k + 1) steps.length) =
      0 :: 1 :: List.range' 2 m' := by
    rw [hm', List.range_eq_range', List.range'_succ, List.range'_succ]
  constructor
  · rw [execute_mk_contexts, hrange]
    exact (execLoop_attempt_head oracle 0 _ none (by simp)).2
  · rw [execute_mk_contexts, hrange,
      execLoop_cons_skip oracle 0 _ 0 (le_refl 0)]
    exact (execLoop_attempt_head oracle 1 _ (some 0) (by simp)).2

/-- C10 witness: both context values evaluate to 0 on a concrete two-step
plan with target index 1. -/
theorem prepare_context_none_vs_some_zero_witness :
    (execute_plan_until (fun _ => true) 1
        (some ⟨"p", [⟨"a", []⟩, ⟨"b", []⟩], none⟩)).contexts.head? = some 0 ∧
    (execute_plan_until (fun _ => true) 1
        (some ⟨"q", [⟨"a", []⟩, ⟨"b", []⟩], some 0⟩)).contexts.head? = some 0 :=
  prepare_context_none_vs_some_zero (fun _ => true) "p" "q"
    [⟨"a", []⟩, ⟨"b", []⟩] 1 (by decide) (by decide)

/-- C1 counterexample: a one-step plan with target index 5 — every step
execution in the loop succeeds (the oracle is constantly true and the run
does not halt), yet the checkpoint after the call is `some 0`, not
`some 5` as the claim demands for every plan and every target index. -/
theorem execute_until_checkpoint_claim_cex :
    (execute_plan_until (fun _ => true) 5
        (some ⟨"p1", [⟨"a", []⟩], none⟩)).halted = false ∧
    (execute_plan_until (fun _ => true) 5
        (some ⟨"p1", [⟨"a", []⟩], none⟩)).storage =
      some ⟨"p1", [⟨"a", []⟩], some 0⟩ ∧
    storageCk (execute_plan_until (fun _ => true) 5
        (some ⟨"p1", [⟨"a", []⟩], none⟩)).storage ≠ some 5 :=
  ⟨rfl, rfl, by decide⟩

/-- C1 (amended): for every plan whose target index `k` is a valid step
index (`k < len(steps)`) and whose checkpoint does not already lie beyond
`k`, if every step execution in the loop succeeds then after
`execute_plan_until(k)` the persisted checkpoint is `some k`, and — for any
lifetime execution count consistent with the checkpoint — every step with
index ≤ k has been executed exactly once over the plan's lifetime and no
step has ever been executed twice. -/
theorem execute_until_success_checkpoint (oracle : Nat → Bool) (k : Nat)
    (p : Plan) (count : Nat → Nat) (hcount : execCountOk p count)
    (hk : k < p.steps.length) (hck : ∀ c, p.checkpoint = some c → c ≤ k)
    (hsucc : ∀ i, i ≤ k → oracle i = true) :
    (execute_plan_until oracle k (some p)).halted = false ∧
    (execute_plan_until oracle k (some p)).storage =
      some ⟨p.id, p.steps, some k⟩ ∧
    (∀ i, i ≤ k →
      count i + (execute_plan_until oracle k (some p)).attempted.count i = 1) ∧
    (∀ i, count i + (execute_plan_until oracle k (some p)).attempted.count i ≤ 1) := by
  obtain ⟨pid, steps, ck⟩ := p
  simp only at hk hck ⊢
  have hmin : min (k + 1) steps.length = k + 1 := Nat.min_eq_left (by omega)
  cases ck with
  | none =>
    have hloop : execLoop oracle (List.range (min (k + 1) steps.length)) none =
        ⟨some k, (List.range' 0 (k + 1)).map PlanEvent.finishedUntil,
         List.range' 0 (k + 1), 0 :: List.range' 0 k,
         List.range' 0 (k + 1), false⟩ := by
      rw [hmin, List.range_eq_range']
      exact execLoop_success_none oracle k hsucc
    refine ⟨?_, ?_, ?_, ?_⟩
    · rw [execute_mk_halted, hloop]
    · rw [execute_mk_storage, hloop]
    · intro i hi
      have hc0 : count i = 0 := hcount i
      rw [execute_mk_attempted, hloop, hc0]
      show 0 + List.count i (List.range' 0 (k + 1)) = 1
      rw [Nat.zero_add]
      exact List.count_eq_one_of_mem (List.nodup_range' 0 (k + 1))
        (List.mem_range'_1.mpr ⟨by omega, by omega⟩)
    · intro i
      have hc0 : count i = 0 := hcount i
      rw [execute_mk_attempted, hloop, hc0]
      show 0 + List.count i (List.range' 0 (k + 1)) ≤ 1
      rw [Nat.zero_add]
      exact List.nodup_iff_count_le_one.mp (List.nodup_range' 0 (k + 1)) i
  | some c =>
    have hc : c ≤ k := hck c rfl
    have hsplit : List.range (k + 1) =
        List.range (c + 1) ++ List.range' (c + 1) (k - c) := by
      rw [List.range_eq_range', List.range_eq_range']
      have := List.range'_append 0 (c + 1) (k - c) 1
      simp only [Nat.one_mul, Nat.zero_add] at this
      calc List.range' 0 (k + 1)
          = List.range' 0 (k - c + (c + 1)) := by congr 1; omega
        _ = _ := this.symm
    have hskip := execLoop_skip_all oracle (List.range (c + 1)) c
      (fun i hi => by rw [List.mem_range] at hi; omega)
    have hrun := execLoop_success_run oracle (k - c) c
      (fun i h₁ h₂ => hsucc i (by omega))
    have hkc : c + (k - c) = k := by omega
    have hloop : execLoop oracle (List.range (min (k + 1) steps.length)) (some c) =
        ⟨some k,
         (List.range (c + 1)).map (fun i => PlanEvent.alreadyExecuted i c) ++
           (List.range' (c + 1) (k - c)).map PlanEvent.finishedUntil,
         List.range' (c + 1) (k - c), List.range' c (k - c),
         List.range' (c + 1) (k - c), false⟩ := by
      rw [hmin, hsplit,
        execLoop_append_of_not_halted oracle _ _ (some c) (by rw [hskip]),
        hskip]
      simp only
      rw [hrun]
      simp [hkc]
    refine ⟨?_, ?_, ?_, ?_⟩
    · rw [execute_mk_halted, hloop]
    · rw [execute_mk_storage, hloop]
    · intro i hi
      have hci : count i = if i ≤ c then 1 else 0 := hcount i
      rw [execute_mk_attempted, hloop]
      show count i + List.count i (List.range' (c + 1) (k - c)) = 1
      rcases le_or_lt i c with hic | hic
      · have hc1 : count i = 1 := by rw [hci, if_pos hic]
        have hcnt0 : List.count i (List.range' (c + 1) (k - c)) = 0 :=
          List.count_eq_zero.mpr
            (fun hmem => by rw [List.mem_range'_1] at hmem; omega)
        omega
      · have hc0 : count i = 0 := by rw [hci, if_neg (by omega)]
        have hcnt1 : List.count i (List.range' (c + 1) (k - c)) = 1 :=
          List.count_eq_one_of_mem (List.nodup_range' (c + 1) (k - c))
            (List.mem_range'_1.mpr ⟨by omega, by omega⟩)
        omega
    · intro i
      have hci : count i = if i ≤ c then 1 else 0 := hcount i
      rw [execute_mk_attempted, hloop]
      show count i + List.count i (List.range' (c + 1) (k - c)) ≤ 1
      rcases le_or_lt i c with hic | hic
      · have hc1 : count i = 1 := by rw [hci, if_pos hic]
        have hcnt0 : List.count i (List.range' (c + 1) (k - c)) = 0 :=
          List.count_eq_zero.mpr
            (fun hmem => by rw [List.mem_range'_1] at hmem; omega)
        omega
      · have hc0 : count i = 0 := by rw [hci, if_neg (by omega)]
        have hcle : List.count i (List.range' (c + 1) (k - c)) ≤ 1 :=
          List.nodup_iff_count_le_one.mp (List.nodup_range' (c + 1) (k - c)) i
        omega

/-- C1 witness: the amended theorem applied to a concrete three-step plan,
target index 1, never-executed lifetime counts, and an all-true oracle. -/
theorem execute_until_success_checkpoint_witness :
    (execute_plan_until (fun _ => true) 1
        (some ⟨"w1", [⟨"a", []⟩, ⟨"b", []⟩, ⟨"c", []⟩], none⟩)).halted = false ∧
    (execute_plan_until (fun _ => true) 1
        (some ⟨"w1", [⟨"a", []⟩, ⟨"b", []⟩, ⟨"c", []⟩], none⟩)).storage =
      some ⟨"w1", [⟨"a", []⟩, ⟨"b", []⟩, ⟨"c", []⟩], some 1⟩ ∧
    (∀ i, i ≤ 1 →
      (fun _ => 0) i + (execute_plan_until (fun _ => true) 1
        (some ⟨"w1", [⟨"a", []⟩, ⟨"b", []⟩, ⟨"c", []⟩], none⟩)).attempted.count i = 1) ∧
    (∀ i, (fun _ => 0) i + (execute_plan_until (fun _ => true) 1
        (some ⟨"w1", [⟨"a", []⟩, ⟨"b", []⟩, ⟨"c", []⟩], none⟩)).attempted.count i ≤ 1) :=
  execute_until_success_checkpoint (fun _ => true) 1
    ⟨"w1", [⟨"a", []⟩, ⟨"b", []⟩, ⟨"c", []⟩], none⟩ (fun _ => 0)
    (fun _ => rfl) (by decide) (fun c h => nomatch h) (fun _ _ => rfl)

/-- C2 (confirmed): when the first not-yet-checkpointed steps succeed up to
index `i` and executing step `i` fails, `execute_plan_until` emits exactly
one error event, naming `i`; no index greater than `i` is attempted; the
persisted checkpoint keeps its last successful value (`some (i-1)` after the
earlier successes, or the original checkpoint when nothing was executed);
and any later call with the same or a larger target attempts index `i`
first — resuming at the first not-yet-checkpointed index, not index 0. -/
theorem execute_until_failure_stops (oracle : Nat → Bool) (k i : Nat) (p : Plan)
    (hre : resumeIdx p.checkpoint ≤ i) (hik : i ≤ k)
    (hilen : i < p.steps.length)
    (hbefore : ∀ j, resumeIdx p.checkpoint ≤ j → j < i → oracle j = true)
    (hfail : oracle i = false) :
    (execute_plan_until oracle k (some p)).halted = true ∧
    (execute_plan_until oracle k (some p)).events.filter PlanEvent.isError =
      [PlanEvent.erroredStep i] ∧
    (∀ j ∈ (execute_plan_until oracle k (some p)).attempted, j ≤ i) ∧
    (execute_plan_until oracle k (some p)).storage =
      some ⟨p.id, p.steps, if i = 0 then p.checkpoint else some (i - 1)⟩ ∧
    (∀ oracle₂ k₂, k ≤ k₂ →
      (execute_plan_until oracle₂ k₂
        (execute_plan_until oracle k (some p)).storage).attempted.head? =
        some i) := by
  obtain ⟨pid, steps, ck⟩ := p
  have hre' : resumeIdx ck ≤ i := hre
  have hilen' : i < steps.length := hilen
  have hbefore' : ∀ j, resumeIdx ck ≤ j → j < i → oracle j = true := hbefore
  have him : i < min (k + 1) steps.length := lt_min (by omega) hilen'
  obtain ⟨hhalted, hckpt, herr, hatt⟩ :=
    execLoop_fail_run oracle (min (k + 1) steps.length) i ck hre' him
      hbefore' hfail
  refine ⟨?_, ?_, ?_, ?_, ?_⟩
  · rw [execute_mk_halted]
    exact hhalted
  · rw [execute_mk_events]
    exact herr
  · rw [execute_mk_attempted]
    exact hatt
  · rw [execute_mk_storage, hckpt]
  · intro oracle₂ k₂ hk₂
    rw [execute_mk_storage, hckpt]
    have hre₂ : resumeIdx (if i = 0 then ck else some (i - 1)) = i := by
      by_cases h0 : i = 0
      · subst h0
        rw [if_pos rfl]
        cases ck with
        | none => rfl
        | some c =>
          simp only [resumeIdx] at hre'
          omega
      · rw [if_neg h0]
        simp only [resumeIdx]
        omega
    rw [execute_mk_attempted]
    exact execLoop_resume_head oracle₂ (min (k₂ + 1) steps.length) i _ hre₂
      (lt_min (by omega) hilen')

/-- C2 witness: a three-step plan where step 0 succeeds and step 1 fails,
with target index 2; the theorem applies with failing index 1. -/
theorem execute_until_failure_stops_witness :
    (execute_plan_until (fun j => j == 0) 2
        (some ⟨"w2", [⟨"a", []⟩, ⟨"b", []⟩, ⟨"c", []⟩], none⟩)).halted = true ∧
    (execute_plan_until (fun j => j == 0) 2
        (some ⟨"w2", [⟨"a", []⟩, ⟨"b", []⟩, ⟨"c", []⟩], none⟩)).events.filter
      PlanEvent.isError = [PlanEvent.erroredStep 1] ∧
    (∀ j ∈ (execute_plan_until (fun j => j == 0) 2
        (some ⟨"w2", [⟨"a", []⟩, ⟨"b", []⟩, ⟨"c", []⟩], none⟩)).attempted,
      j ≤ 1) ∧
    (execute_plan_until (fun j => j == 0) 2
        (some ⟨"w2", [⟨"a", []⟩, ⟨"b", []⟩, ⟨"c", []⟩], none⟩)).storage =
      some ⟨"w2", [⟨"a", []⟩, ⟨"b", []⟩, ⟨"c", []⟩],
        if 1 = 0 then none else some (1 - 1)⟩ ∧
    (∀ oracle₂ k₂, 2 ≤ k₂ →
      (execute_plan_until oracle₂ k₂
        (execute_plan_until (fun j => j == 0) 2
          (some ⟨"w2", [⟨"a", []⟩, ⟨"b", []⟩, ⟨"c", []⟩], none⟩)).storage).attempted.head? =
        some 1) :=
  execute_until_failure_stops (fun j => j == 0) 2 1
    ⟨"w2", [⟨"a", []⟩, ⟨"b", []⟩, ⟨"c", []⟩], none⟩
    (by decide) (by decide) (by decide)
    (fun j _ hj => by
      have hj0 : j = 0 := by omega
      subst hj0
      rfl)
    rfl

/-- C3 counterexample: a one-step plan with target index 1 — the first
`execute_plan_until(1)` completes with no failure, but the second call
emits a single "already executed" event, not one per index ≤ 1 (which
would be two events, for indices 0 and 1). -/
theorem execute_until_idempotent_claim_cex :
    (execute_plan_until (fun _ => true) 1
        (some ⟨"p3", [⟨"a", []⟩], none⟩)).halted = false ∧
    (execute_plan_until (fun _ => true) 1
        (execute_plan_until (fun _ => true) 1
          (some ⟨"p3", [⟨"a", []⟩], none⟩)).storage).events =
      [PlanEvent.alreadyExecuted 0 0] ∧
    ((execute_plan_until (fun _ => true) 1
        (execute_plan_until (fun _ => true) 1
          (some ⟨"p3", [⟨"a", []⟩], none⟩)).storage).events).length ≠ 2 :=
  ⟨rfl, rfl, by decide⟩

/-- C3 (amended): immediately re-calling `execute_plan_until(k)` after a
first call on the same plan that completed with no mid-loop failure, with
no intervening append, re-executes no step, leaves storage (hence the
checkpoint) unchanged, and emits exactly one "already executed"
informational event per step index that is both ≤ k and a valid index into
the steps (not one per index ≤ k when k exceeds the last step index). -/
theorem execute_until_idempotent_amended (oracle₁ oracle₂ : Nat → Bool)
    (k : Nat) (p : Plan)
    (h : (execute_plan_until oracle₁ k (some p)).halted = false) :
    (execute_plan_until oracle₂ k
        (execute_plan_until oracle₁ k (some p)).storage).attempted = [] ∧
    (execute_plan_until oracle₂ k
        (execute_plan_until oracle₁ k (some p)).storage).storage =
      (execute_plan_until oracle₁ k (some p)).storage ∧
    (execute_plan_until oracle₂ k
        (execute_plan_until oracle₁ k (some p)).storage).events =
      (planIdxs p k).map (fun j => PlanEvent.alreadyExecuted j
        ((storageCk (execute_plan_until oracle₁ k (some p)).storage).getD 0)) := by
  obtain ⟨pid, steps, ck⟩ := p
  have hh : (execLoop oracle₁ (List.range (min (k + 1) steps.length)) ck).halted
      = false := by
    rw [← execute_mk_halted]
    exact h
  have heq := execLoop_not_halted_eq oracle₁
    (List.range (min (k + 1) steps.length)) ck hh
  have hst : (execute_plan_until oracle₁ k (some ⟨pid, steps, ck⟩)).storage =
      some ⟨pid, steps, (execLoop (fun _ => true)
        (List.range (min (k + 1) steps.length)) ck).checkpoint⟩ := by
    rw [execute_mk_storage, heq]
  rcases Nat.eq_zero_or_pos (min (k + 1) steps.length) with hm | hm
  · have hrange : List.range (min (k + 1) steps.length) = [] := by
      rw [hm]
      rfl
    have hst0 : (execute_plan_until oracle₁ k (some ⟨pid, steps, ck⟩)).storage =
        some ⟨pid, steps, ck⟩ := by
      rw [hst, hrange]
      rfl
    refine ⟨?_, ?_, ?_⟩
    · rw [hst0, execute_mk_attempted, hrange]
      rfl
    · rw [hst0, execute_mk_storage, hrange]
      rfl
    · rw [hst0, execute_mk_events, hrange, planIdxs_mk, hrange]
      rfl
  · obtain ⟨c₁, hc₁, hge⟩ :=
      execLoop_true_range_checkpoint (min (k + 1) steps.length) ck hm
    have hst1 : (execute_plan_until oracle₁ k (some ⟨pid, steps, ck⟩)).storage =
        some ⟨pid, steps, some c₁⟩ := by
      rw [hst, hc₁]
    have hskip := execLoop_skip_all oracle₂
      (List.range (min (k + 1) steps.length)) c₁
      (fun j hj => by rw [List.mem_range] at hj; omega)
    refine ⟨?_, ?_, ?_⟩
    · rw [hst1, execute_mk_attempted, hskip]
    · rw [hst1, execute_mk_storage, hskip]
    · rw [hst1, execute_mk_events, hskip, planIdxs_mk]
      simp [storageCk]

/-- C3 witness: a one-step plan with target index 0 run twice. -/
theorem execute_until_idempotent_amended_witness :
    (execute_plan_until (fun _ => true) 0
        (execute_plan_until (fun _ => true) 0
          (some ⟨"w3", [⟨"a", []⟩], none⟩)).storage).attempted = [] ∧
    (execute_plan_until (fun _ => true) 0
        (execute_plan_until (fun _ => true) 0
          (some ⟨"w3", [⟨"a", []⟩], none⟩)).storage).storage =
      (execute_plan_until (fun _ => true) 0
        (some ⟨"w3", [⟨"a", []⟩], none⟩)).storage ∧
    (execute_plan_until (fun _ => true) 0
        (execute_plan_until (fun _ => true) 0
          (some ⟨"w3", [⟨"a", []⟩], none⟩)).storage).events =
      (planIdxs ⟨"w3", [⟨"a", []⟩], none⟩ 0).map
        (fun j => PlanEvent.alreadyExecuted j
          ((storageCk (execute_plan_until (fun _ => true) 0
            (some ⟨"w3", [⟨"a", []⟩], none⟩)).storage).getD 0)) :=
  execute_until_idempotent_amended (fun _ => true) (fun _ => true) 0
    ⟨"w3", [⟨"a", []⟩], none⟩ rfl

/-- C5 (confirmed): every storage content reachable through any sequence of
create, append, execute-until and diagnostics-to-steps operations
satisfies the invariant: whenever the stored plan's checkpoint is present,
it is strictly less than the length of the plan's step sequence. -/
theorem plan_checkpoint_invariant (s : Option Plan) (hs : Reachable s)
    (p : Plan) (c : Nat) (hp : s = some p) (hc : p.checkpoint = some c) :
    c < p.steps.length := by
  induction hs generalizing p c with
  | init => exact Option.noConfusion hp
  | createOp s pid genResult hs ih =>
    cases genResult with
    | none => exact ih p c hp hc
    | some steps =>
      have hp' : (⟨pid, steps, none⟩ : Plan) = p := Option.some_inj.mp hp
      subst hp'
      exact absurd hc (by simp)
  | appendOp s genResult debugView hs ih =>
    cases s with
    | none => exact Option.noConfusion hp
    | some q =>
      obtain ⟨qid, qsteps, qck⟩ := q
      cases genResult with
      | none => exact ih p c hp hc
      | some newSteps =>
        have hp' : (⟨qid, qsteps ++ newSteps, qck⟩ : Plan) = p :=
          Option.some_inj.mp hp
        subst hp'
        have hc' : qck = some c := hc
        have hlt : c < qsteps.length := ih ⟨qid, qsteps, qck⟩ c rfl hc'
        show c < (qsteps ++ newSteps).length
        rw [List.length_append]
        omega
  | execOp s oracle k hs ih =>
    cases s with
    | none => exact Option.noConfusion hp
    | some q =>
      obtain ⟨qid, qsteps, qck⟩ := q
      rw [execute_mk_storage] at hp
      have hp' : (⟨qid, qsteps, (execLoop oracle
          (List.range (min (k + 1) qsteps.length)) qck).checkpoint⟩ : Plan) = p :=
        Option.some_inj.mp hp
      subst hp'
      have hc' : (execLoop oracle
          (List.range (min (k + 1) qsteps.length)) qck).checkpoint = some c := hc
      show c < qsteps.length
      refine execLoop_checkpoint_lt oracle _ qck qsteps.length ?_ ?_ c hc'
      · intro i hi
        rw [List.mem_range] at hi
        omega
      · intro c₀ hc₀
        exact ih ⟨qid, qsteps, qck⟩ c₀ rfl hc₀
  | diagOp s fetchDiagnostics genSteps hs ih =>
    cases s with
    | none => exact Option.noConfusion hp
    | some q =>
      obtain ⟨qid, qsteps, qck⟩ := q
      cases qck with
      | none => exact ih p c hp hc
      | some c₀ => exact ih p c hp hc

/-- C5 witness: the storage reached by create followed by
`execute_plan_until(0)` holds checkpoint `some 0` with one step, and the
invariant instance 0 < 1 follows by the theorem. -/
theorem plan_checkpoint_invariant_witness :
    (0 : Nat) < (Plan.mk "w5" [PlanStep.mk "a" []] (some 0)).steps.length :=
  plan_checkpoint_invariant
    (execute_plan_until (fun _ => true) 0
      (create_plan "w5" (some [PlanStep.mk "a" []]) none)).storage
    (Reachable.execOp (create_plan "w5" (some [PlanStep.mk "a" []]) none)
      (fun _ => true) 0
      (Reachable.createOp none "w5" (some [PlanStep.mk "a" []]) Reachable.init))
    (Plan.mk "w5" [PlanStep.mk "a" []] (some 0)) 0 rfl rfl

end Sidecar
